import Mathlib

/-!
Shallow embedding of the mikordle board evaluator (src/utils/types.ts),
session controller (src/components/mikorle/mikordle.tsx) and the peer
transport send path (utils/messenger.ts), with theorems checking the
claims of the specification about them.

Strings are modelled as lists of characters; TypeScript in-place mutation
is modelled by returning the updated value; code paths that would throw a
runtime TypeError are modelled with Option (none = failure).
-/

/-- MatchState of one letter cell: MATCH | POSITION | INVALID. -/
inductive MatchState where
  | MATCH
  | POSITION
  | INVALID
deriving DecidableEq, Repr

/-- One letter cell of a row: { letter, state }. -/
structure Letter where
  letter : Char
  state : MatchState
deriving DecidableEq, Repr

/-- One row of a board: { width, letter?: Letter[] }.  The letter list is
optional exactly as in the source (the field may be undefined). -/
structure WordleRow where
  width : Nat
  letter : Option (List Letter)
deriving DecidableEq, Repr

/-- The completion field: false | SUCCESS | FAIL. -/
inductive Completion where
  | incomplete
  | success
  | fail
deriving DecidableEq, Repr

/-- Board state minus width/height, as consumed by add/remove/enter:
{ rows, complete, target }. -/
structure WordleState where
  rows : List WordleRow
  complete : Completion
  target : List Char
deriving DecidableEq, Repr

/-- First evaluation pass of enter: walk guess letters and the target copy
in step; on an exact match mark MATCH and sentinel that target position
with an underscore.  Positions of the target beyond the guess length are
untouched; guess letters beyond the target length cannot match (reading
past the end of a JS string yields undefined). -/
def firstPass : List Letter → List Char → List Letter × List Char
  | [], tc => ([], tc)
  | ls, [] => (ls, [])
  | l :: rest, c :: cs =>
    if c = l.letter then
      let r := firstPass rest cs
      ({ l with state := MatchState.MATCH } :: r.1, '_' :: r.2)
    else
      let r := firstPass rest cs
      (l :: r.1, c :: r.2)

/-- Second evaluation pass of enter: for each non-MATCH cell, find the
guessed character in the masked target copy (findIndex, left to right);
if found mark POSITION and sentinel that occurrence, otherwise INVALID. -/
def secondPass : List Letter → List Char → List Letter × List Char
  | [], tc => ([], tc)
  | l :: rest, tc =>
    if l.state = MatchState.MATCH then
      let r := secondPass rest tc
      (l :: r.1, r.2)
    else if l.letter ∈ tc then
      let r := secondPass rest (tc.set (tc.indexOf l.letter) '_')
      ({ l with state := MatchState.POSITION } :: r.1, r.2)
    else
      let r := secondPass rest tc
      ({ l with state := MatchState.INVALID } :: r.1, r.2)

/-- Both passes of the enter evaluation over a committed row against the
target word of the board. -/
def evalRow (ls : List Letter) (target : List Char) : List Letter :=
  (secondPass (firstPass ls target).1 (firstPass ls target).2).1

/-- types.ts add: no-op when complete; ensures a row exists; normalises an
undefined letter list to []; appends the letter tagged INVALID unless the
open row is already full. -/
def add (inst : WordleState) (width height : Nat) (letter : Char) : WordleState :=
  if inst.complete ≠ Completion.incomplete then inst else
  let rows0 := if inst.rows.length = 0 then inst.rows ++ [⟨width, some []⟩] else inst.rows
  match rows0.getLast? with
  | none => inst
  | some entry0 =>
    let ls := entry0.letter.getD []
    if ls.length ≥ entry0.width then
      { inst with rows := rows0.dropLast ++ [{ entry0 with letter := some ls }] }
    else
      { inst with rows := rows0.dropLast ++
          [{ entry0 with letter := some (ls ++ [⟨letter, MatchState.INVALID⟩]) }] }

/-- types.ts remove: no-op when complete, when there are no rows, or when
the open row is empty; otherwise drops the last letter of the open row
(normalising an undefined letter list to [] first, as the source does). -/
def remove (inst : WordleState) : WordleState :=
  if inst.complete ≠ Completion.incomplete then inst else
  if inst.rows.length = 0 then inst else
  match inst.rows.getLast? with
  | none => inst
  | some entry0 =>
    let ls := entry0.letter.getD []
    if ls.length ≤ 0 then
      { inst with rows := inst.rows.dropLast ++ [{ entry0 with letter := some ls }] }
    else
      { inst with rows := inst.rows.dropLast ++ [{ entry0 with letter := some ls.dropLast }] }

/-- types.ts enter: reading the open row of an empty rows array throws a
TypeError in the source, modelled as none.  Otherwise: no-op (after letter
normalisation) unless the open row is full; when full the row is evaluated
in two passes, then complete becomes SUCCESS when every cell is MATCH,
FAIL when the row count has reached the height, and otherwise a fresh
empty row is appended.  Note the source has no completed-board guard
here. -/
def enter (inst : WordleState) (width height : Nat) : Option WordleState :=
  match inst.rows.getLast? with
  | none => none
  | some entry0 =>
    let ls := entry0.letter.getD []
    if ls.length ≠ entry0.width then
      some { inst with rows := inst.rows.dropLast ++ [{ entry0 with letter := some ls }] }
    else
      let evaluated := evalRow ls inst.target
      let newRows := inst.rows.dropLast ++ [{ entry0 with letter := some evaluated }]
      if evaluated.all (fun l => l.state = MatchState.MATCH) then
        some { inst with rows := newRows, complete := Completion.success }
      else if inst.rows.length ≥ height then
        some { inst with rows := newRows, complete := Completion.fail }
      else
        some { inst with rows := newRows ++ [⟨width, some []⟩] }

/-- mikordle.tsx WinState: records are false (lost) or the number of
guesses used. -/
structure WinState where
  letterCount : Nat
  guessesAllowed : Nat
  columns : Nat
  records : List (Option Nat)
deriving DecidableEq, Repr

/-- mikordle.tsx GameState: the controller-level state of a game in
play. -/
structure GameState where
  letterCount : Nat
  guessesAllowed : Nat
  columns : Nat
  activeGuess : List Char
  states : List WordleState
deriving DecidableEq, Repr

/-- The union GameState | WinState held by the Mikordle component. -/
inductive StateOrWin where
  | game (g : GameState)
  | win (w : WinState)
deriving DecidableEq, Repr

/-- mikordle.tsx addLetter: no-op when the active guess is already full;
otherwise appends the letter to the guess and pushes it onto every board
that is not complete. -/
def addLetter (g : GameState) (letter : Char) : GameState :=
  if g.activeGuess.length ≥ g.letterCount then g
  else
    { g with
      activeGuess := g.activeGuess ++ [letter],
      states := g.states.map (fun e =>
        if e.complete ≠ Completion.incomplete then e
        else add e g.letterCount g.guessesAllowed letter) }

/-- mikordle.tsx removeLetter: no-op when the active guess is empty;
otherwise drops the last guess letter and the last letter of every
open row of every incomplete board. -/
def removeLetter (g : GameState) : GameState :=
  if g.activeGuess.length ≤ 0 then g
  else
    { g with
      activeGuess := g.activeGuess.dropLast,
      states := g.states.map (fun e =>
        if e.complete ≠ Completion.incomplete then e
        else remove e) }

/-- The states.map of mikordle.tsx onEnter: completed boards are kept,
incomplete ones go through enter; a TypeError inside the callback aborts
the whole map (none). -/
def enterAll (ws : List WordleState) (width height : Nat) : Option (List WordleState) :=
  match ws with
  | [] => some []
  | e :: rest =>
    let e' := if e.complete ≠ Completion.incomplete then some e else enter e width height
    match e', enterAll rest width height with
    | some a, some b => some (a :: b)
    | _, _ => none

/-- mikordle.tsx onEnter: returns the state untouched unless the active
guess is exactly letterCount letters and a member of the valid-word list;
otherwise commits the guess to every incomplete board, producing a
WinState when every board is then complete and otherwise clearing the
active guess. -/
def onEnter (g : GameState) (validWords : List (List Char)) : Option StateOrWin :=
  if g.activeGuess.length ≠ g.letterCount then some (StateOrWin.game g)
  else if g.activeGuess ∉ validWords then some (StateOrWin.game g)
  else
    match enterAll g.states g.letterCount g.guessesAllowed with
    | none => none
    | some states =>
      if states.all (fun e => e.complete ≠ Completion.incomplete) then
        some (StateOrWin.win
          { letterCount := g.letterCount,
            guessesAllowed := g.guessesAllowed,
            columns := g.columns,
            records := states.map (fun e =>
              if e.complete = Completion.success then some e.rows.length else none) })
      else
        some (StateOrWin.game { g with states := states, activeGuess := [] })

/-- The default state built in the Mikordle constructor: empty guess, one
board per target word, each with no rows and complete = false. -/
def initialState (letterCount guessesAllowed columns : Nat)
    (words : List (List Char)) : GameState :=
  { letterCount := letterCount,
    guessesAllowed := guessesAllowed,
    columns := columns,
    activeGuess := [],
    states := words.map (fun t => ⟨[], Completion.incomplete, t⟩) }

/-- Number of letters held by the open (last) row of a board; a board with
no rows counts as zero letters. -/
def openCount (b : WordleState) : Nat :=
  match b.rows.getLast? with
  | none => 0
  | some r => (r.letter.getD []).length

/-- One controller operation: a letter key, backspace, or enter (with the
valid-word list supplied to that call). -/
inductive Op where
  | addL (c : Char)
  | removeL
  | enterOp (validWords : List (List Char))

/-- Apply one controller operation to a GameState. -/
def applyOp (g : GameState) : Op → Option StateOrWin
  | Op.addL c => some (StateOrWin.game (addLetter g c))
  | Op.removeL => some (StateOrWin.game (removeLetter g))
  | Op.enterOp vw => onEnter g vw

/-- GameStates reachable from an initial state by a sequence of controller
operations that keep the game in play. -/
inductive Reachable (init : GameState) : GameState → Prop where
  | refl : Reachable init init
  | step (g g' : GameState) (op : Op) :
      Reachable init g → applyOp g op = some (StateOrWin.game g') → Reachable init g'

/-- Auxiliary invariant maintained by the controller: the guess never
exceeds letterCount, every row of every board has width letterCount and a
present letter list, and the open row of every incomplete board holds exactly
the letters of the active guess. -/
def CtrlInv (g : GameState) : Prop :=
  g.activeGuess.length ≤ g.letterCount ∧
  ∀ b ∈ g.states,
    (∀ r ∈ b.rows, r.width = g.letterCount ∧ r.letter ≠ none) ∧
    (b.complete = Completion.incomplete → openCount b = g.activeGuess.length)

/-- A keydown event as consumed by Mikordle.onKey: a numeric keyCode and
the key character. -/
structure KeyEvent where
  keyCode : Nat
  key : Char
deriving DecidableEq, Repr

/-- A replication message sent through the communicator. -/
inductive RepMsg where
  | keyPressed (c : Char)
  | keyRemoved
  | enterPressed
deriving DecidableEq, Repr

/-- Mikordle.onKey: filters key codes, and for a letter / backspace /
enter runs the corresponding state update; when a communicator is
attached, the state is a GameState and the event is not synthetic, the
matching replication message is sent first.  Returns the messages sent
alongside the new state (none when onEnter crashed; its message was
already sent). -/
def onKey (hasComm : Bool) (validWords : List (List Char)) (synthetic : Bool)
    (e : Option KeyEvent) (s : StateOrWin) : Option StateOrWin × List RepMsg :=
  match e with
  | none => (some s, [])
  | some ev =>
    if (ev.keyCode < 65 ∨ 90 < ev.keyCode) ∧ ev.keyCode ≠ 8 ∧ ev.keyCode ≠ 13 then
      (some s, [])
    else if 65 ≤ ev.keyCode ∧ ev.keyCode ≤ 90 then
      match s with
      | StateOrWin.win w => (some (StateOrWin.win w), [])
      | StateOrWin.game g =>
        (some (StateOrWin.game (addLetter g ev.key.toUpper)),
         if hasComm ∧ ¬synthetic then [RepMsg.keyPressed ev.key.toUpper] else [])
    else if ev.keyCode = 8 then
      match s with
      | StateOrWin.win w => (some (StateOrWin.win w), [])
      | StateOrWin.game g =>
        (some (StateOrWin.game (removeLetter g)),
         if hasComm ∧ ¬synthetic then [RepMsg.keyRemoved] else [])
    else
      match s with
      | StateOrWin.win w => (some (StateOrWin.win w), [])
      | StateOrWin.game g =>
        (onEnter g validWords,
         if hasComm ∧ ¬synthetic then [RepMsg.enterPressed] else [])

/-- The replication message the spec expects for a given key event. -/
def expectedRepMsg (ev : KeyEvent) : RepMsg :=
  if 65 ≤ ev.keyCode ∧ ev.keyCode ≤ 90 then RepMsg.keyPressed ev.key.toUpper
  else if ev.keyCode = 8 then RepMsg.keyRemoved
  else RepMsg.enterPressed

namespace WebRTCCommunicator

/-- The fields of WebRTCCommunicator that its send method reads: the ready
flag and whether a data channel has been established. -/
structure CommState where
  isReady : Bool
  dataChannel : Option Unit
deriving DecidableEq, Repr

/-- WebRTCCommunicator.send: throws the not-open error unless ready and a data
channel exists, otherwise transmits the value on the channel.  Result is
(state after, messages transmitted, error raised). -/
def send (c : CommState) (value : String) : CommState × List String × Option String :=
  if ¬c.isReady ∨ c.dataChannel = none then (c, [], some "not open")
  else (c, [value], none)

end WebRTCCommunicator

/-- A freshly typed letter cell, as produced by add. -/
def typed (c : Char) : Letter := ⟨c, MatchState.INVALID⟩

/-- An open row holding a freshly typed guess. -/
def typedRow (s : List Char) : WordleRow := ⟨s.length, some (s.map typed)⟩

/-- Incomplete board with target CRANE whose open row holds the typed
guess TRACE (the spec scenario of C2). -/
def craneBoard : WordleState :=
  ⟨[typedRow ['T', 'R', 'A', 'C', 'E']], Completion.incomplete, ['C', 'R', 'A', 'N', 'E']⟩

/-- A board already completed as FAIL after one wrong one-letter guess. -/
def failedBoard : WordleState :=
  ⟨[⟨1, some [⟨'A', MatchState.INVALID⟩]⟩], Completion.fail, ['B']⟩

/-- An incomplete board whose rows sequence is empty. -/
def rowlessBoard : WordleState := ⟨[], Completion.incomplete, ['A', 'B', 'C']⟩

/-- An incomplete board whose open row is already full. -/
def fullRowBoard : WordleState :=
  ⟨[⟨1, some [⟨'A', MatchState.INVALID⟩]⟩], Completion.incomplete, ['B']⟩

/-- An incomplete board one letter into a three-letter guess. -/
def shortRowBoard : WordleState :=
  ⟨[⟨3, some [typed 'A']⟩], Completion.incomplete, ['C', 'A', 'T']⟩

/-- An incomplete board one letter into a two-letter guess. -/
def roundTripBoard : WordleState :=
  ⟨[⟨2, some [typed 'H']⟩], Completion.incomplete, ['H', 'I']⟩

/-- An incomplete board with the full correct guess HI typed. -/
def winBoard : WordleState :=
  ⟨[⟨2, some [typed 'H', typed 'I']⟩], Completion.incomplete, ['H', 'I']⟩

/-! ### Unfolding equations for the two evaluation passes -/

theorem firstPass_nil (tc : List Char) : firstPass [] tc = ([], tc) := by
  cases tc <;> rfl

theorem firstPass_cons_hit (l : Letter) (rest : List Letter) (c : Char) (cs : List Char)
    (h : c = l.letter) :
    firstPass (l :: rest) (c :: cs) =
      ({ l with state := MatchState.MATCH } :: (firstPass rest cs).1,
       '_' :: (firstPass rest cs).2) := by
  simp [firstPass, h]

theorem firstPass_cons_miss (l : Letter) (rest : List Letter) (c : Char) (cs : List Char)
    (h : ¬c = l.letter) :
    firstPass (l :: rest) (c :: cs) =
      (l :: (firstPass rest cs).1, c :: (firstPass rest cs).2) := by
  simp [firstPass, h]

theorem secondPass_nil (tc : List Char) : secondPass [] tc = ([], tc) := by
  rfl

theorem secondPass_cons_skip (l : Letter) (rest : List Letter) (tc : List Char)
    (h : l.state = MatchState.MATCH) :
    secondPass (l :: rest) tc = (l :: (secondPass rest tc).1, (secondPass rest tc).2) := by
  simp [secondPass, h]

theorem secondPass_cons_pos (l : Letter) (rest : List Letter) (tc : List Char)
    (h : ¬l.state = MatchState.MATCH) (hm : l.letter ∈ tc) :
    secondPass (l :: rest) tc =
      ({ l with state := MatchState.POSITION }
          :: (secondPass rest (tc.set (tc.indexOf l.letter) '_')).1,
       (secondPass rest (tc.set (tc.indexOf l.letter) '_')).2) := by
  simp [secondPass, h, hm]

theorem secondPass_cons_inv (l : Letter) (rest : List Letter) (tc : List Char)
    (h : ¬l.state = MatchState.MATCH) (hm : l.letter ∉ tc) :
    secondPass (l :: rest) tc =
      ({ l with state := MatchState.INVALID } :: (secondPass rest tc).1,
       (secondPass rest tc).2) := by
  simp [secondPass, h, hm]

/-! ### Counting helpers -/

theorem count_cons_char (a c : Char) (l : List Char) :
    (a :: l).count c = l.count c + if a = c then 1 else 0 := by
  rw [List.count_cons]
  simp

theorem countP_or_split {α : Type} (p q : α → Bool) (h : ∀ a, p a = true → q a = false) :
    ∀ l : List α, l.countP (fun a => p a || q a) = l.countP p + l.countP q := by
  intro l
  induction l with
  | nil => simp
  | cons a t ih =>
    rw [List.countP_cons, List.countP_cons, List.countP_cons, ih]
    by_cases hp : p a = true
    · have hq := h a hp
      simp [hp, hq]
      omega
    · simp only [Bool.not_eq_true] at hp
      simp [hp]
      omega

theorem count_set_indexOf (c : Char) (hc : c ≠ '_') :
    ∀ tc : List Char, c ∈ tc →
      (tc.set (tc.indexOf c) '_').count c + 1 = tc.count c := by
  intro tc
  induction tc with
  | nil => intro h; cases h
  | cons a t ih =>
    intro hmem
    by_cases ha : a = c
    · subst ha
      rw [List.indexOf_cons_self]
      show ('_' :: t).count a + 1 = (a :: t).count a
      rw [count_cons_char, count_cons_char]
      have h1 : ¬('_' = a) := fun h => hc h.symm
      simp [h1]
    · have hmem' : c ∈ t := by
        cases hmem with
        | head => exact absurd rfl ha
        | tail _ h => exact h
      rw [List.indexOf_cons_ne t ha]
      show (a :: t.set (t.indexOf c) '_').count c + 1 = (a :: t).count c
      rw [count_cons_char, count_cons_char]
      have := ih hmem'
      omega

theorem count_set_le (c : Char) (hc : c ≠ '_') :
    ∀ (tc : List Char) (i : Nat), (tc.set i '_').count c ≤ tc.count c := by
  intro tc
  induction tc with
  | nil => intro i; simp
  | cons a t ih =>
    intro i
    cases i with
    | zero =>
      show ('_' :: t).count c ≤ (a :: t).count c
      rw [count_cons_char, count_cons_char]
      have h1 : ¬('_' = c) := fun h => hc h.symm
      by_cases ha : a = c <;> simp [h1, ha]
    | succ n =>
      show (a :: t.set n '_').count c ≤ (a :: t).count c
      rw [count_cons_char, count_cons_char]
      have := ih n
      omega

/-! ### Properties of the two evaluation passes -/

/-- The first pass marks MATCH exactly at the agreeing positions, provided
no input cell is already marked MATCH. -/
theorem firstPass_match_count :
    ∀ (L : List Letter) (T : List Char), L.length = T.length →
      (∀ l ∈ L, l.state ≠ MatchState.MATCH) →
      (firstPass L T).1.countP (fun l => decide (l.state = MatchState.MATCH)) =
        ((L.map Letter.letter).zip T).countP (fun p => decide (p.1 = p.2)) := by
  intro L
  induction L with
  | nil => intro T _ _; rw [firstPass_nil]; simp
  | cons l rest ih =>
    intro T h1 h2
    cases T with
    | nil => simp at h1
    | cons c cs =>
      have hlen : rest.length = cs.length := by simpa using h1
      have hrest : ∀ x ∈ rest, x.state ≠ MatchState.MATCH :=
        fun x hx => h2 x (List.mem_cons_of_mem _ hx)
      have hzip : ((l :: rest).map Letter.letter).zip (c :: cs) =
          (l.letter, c) :: (rest.map Letter.letter).zip cs := by simp
      by_cases hm : c = l.letter
      · rw [firstPass_cons_hit l rest c cs hm, hzip, List.countP_cons, List.countP_cons,
          ih cs hlen hrest]
        simp [hm]
      · rw [firstPass_cons_miss l rest c cs hm, hzip, List.countP_cons, List.countP_cons,
          ih cs hlen hrest]
        have hl := h2 l (List.mem_cons_self l rest)
        have hm' : ¬(l.letter = c) := fun h => hm h.symm
        simp [hl, hm']

/-- Credit balance of the first pass for a non-sentinel character c: the
MATCH cells holding c plus the remaining occurrences of c in the masked
target copy account exactly for the occurrences of c in the target. -/
theorem firstPass_credit (c : Char) (hc : c ≠ '_') :
    ∀ (L : List Letter) (T : List Char), L.length = T.length →
      (∀ l ∈ L, l.state ≠ MatchState.MATCH) →
      (firstPass L T).1.countP
          (fun l => decide (l.letter = c ∧ l.state = MatchState.MATCH))
        + (firstPass L T).2.count c = T.count c := by
  intro L
  induction L with
  | nil =>
    intro T h1 _
    have : T = [] := List.eq_nil_of_length_eq_zero h1.symm
    subst this
    rw [firstPass_nil]
    simp
  | cons l rest ih =>
    intro T h1 h2
    cases T with
    | nil => simp at h1
    | cons ch cs =>
      have hlen : rest.length = cs.length := by simpa using h1
      have hrest : ∀ x ∈ rest, x.state ≠ MatchState.MATCH :=
        fun x hx => h2 x (List.mem_cons_of_mem _ hx)
      have hsent : ¬('_' = c) := fun h => hc h.symm
      have ihr := ih cs hlen hrest
      simp only [Bool.decide_and] at ihr
      by_cases hm : ch = l.letter
      · rw [firstPass_cons_hit l rest ch cs hm, List.countP_cons, count_cons_char,
          count_cons_char]
        by_cases hlc : l.letter = c
        · simp only [hlc, hsent, hm]
          simp
          omega
        · have hchc : ¬(ch = c) := by rw [hm]; exact hlc
          simp [hlc, hsent, hchc]
          omega
      · rw [firstPass_cons_miss l rest ch cs hm, List.countP_cons, count_cons_char,
          count_cons_char]
        have hl := h2 l (List.mem_cons_self l rest)
        simp [hl]
        omega

/-- The second pass neither creates nor destroys MATCH cells: counting any
letter-filtered family of MATCH cells is invariant. -/
theorem secondPass_match_count (p : Char → Bool) :
    ∀ (L : List Letter) (tc : List Char),
      (secondPass L tc).1.countP (fun l => p l.letter && decide (l.state = MatchState.MATCH)) =
        L.countP (fun l => p l.letter && decide (l.state = MatchState.MATCH)) := by
  intro L
  induction L with
  | nil => intro tc; rw [secondPass_nil]
  | cons l rest ih =>
    intro tc
    by_cases hm : l.state = MatchState.MATCH
    · rw [secondPass_cons_skip l rest tc hm, List.countP_cons, List.countP_cons, ih]
    · by_cases hmem : l.letter ∈ tc
      · rw [secondPass_cons_pos l rest tc hm hmem, List.countP_cons, List.countP_cons, ih]
        simp [hm]
      · rw [secondPass_cons_inv l rest tc hm hmem, List.countP_cons, List.countP_cons, ih]
        simp [hm]

/-- Each POSITION credit for a non-sentinel character c granted by the
second pass consumes one occurrence of c in the masked target copy. -/
theorem secondPass_position_credit (c : Char) (hc : c ≠ '_') :
    ∀ (L : List Letter) (tc : List Char),
      (secondPass L tc).1.countP
          (fun l => decide (l.letter = c ∧ l.state = MatchState.POSITION))
        ≤ tc.count c := by
  intro L
  induction L with
  | nil => intro tc; rw [secondPass_nil]; simp
  | cons l rest ih =>
    intro tc
    by_cases hm : l.state = MatchState.MATCH
    · rw [secondPass_cons_skip l rest tc hm, List.countP_cons]
      have : ¬(l.letter = c ∧ l.state = MatchState.POSITION) := by
        intro h
        rw [hm] at h
        exact absurd h.2 (by simp)
      simp only [this]
      simpa using ih tc
    · by_cases hmem : l.letter ∈ tc
      · rw [secondPass_cons_pos l rest tc hm hmem, List.countP_cons]
        by_cases hlc : l.letter = c
        · have hcm : c ∈ tc := hlc ▸ hmem
          have hbal := count_set_indexOf c hc tc hcm
          have hih := ih (tc.set (tc.indexOf l.letter) '_')
          rw [hlc] at hih
          simp only [Bool.decide_and] at hih
          simp only [hlc]
          simp
          omega
        · have hih := ih (tc.set (tc.indexOf l.letter) '_')
          simp only [Bool.decide_and] at hih
          have hle := count_set_le c hc tc (tc.indexOf l.letter)
          simp only [hlc]
          simp
          omega
      · rw [secondPass_cons_inv l rest tc hm hmem, List.countP_cons]
        have : ¬(l.letter = c ∧ MatchState.INVALID = MatchState.POSITION) := by
          intro h
          exact absurd h.2 (by simp)
        simp only [this]
        simpa using ih tc

/-! ### Evaluation of a committed row -/

/-- Count of MATCH cells after both passes equals the number of agreeing
positions, for a row whose cells are not pre-marked MATCH. -/
theorem evalRow_match_count (L : List Letter) (T : List Char) (hlen : L.length = T.length)
    (hst : ∀ l ∈ L, l.state ≠ MatchState.MATCH) :
    (evalRow L T).countP (fun l => decide (l.state = MatchState.MATCH)) =
      ((L.map Letter.letter).zip T).countP (fun p => decide (p.1 = p.2)) := by
  unfold evalRow
  have h := secondPass_match_count (fun _ => true) (firstPass L T).1 (firstPass L T).2
  simp only [Bool.true_and] at h
  rw [h]
  exact firstPass_match_count L T hlen hst

/-- MATCH plus POSITION credits for any non-sentinel character never
exceed its occurrence count in the target. -/
theorem evalRow_credit (L : List Letter) (T : List Char) (hlen : L.length = T.length)
    (hst : ∀ l ∈ L, l.state ≠ MatchState.MATCH) (c : Char) (hc : c ≠ '_') :
    (evalRow L T).countP (fun l => decide (l.letter = c) &&
        (decide (l.state = MatchState.MATCH) || decide (l.state = MatchState.POSITION)))
      ≤ T.count c := by
  unfold evalRow
  have hfun : (fun l : Letter => decide (l.letter = c) &&
      (decide (l.state = MatchState.MATCH) || decide (l.state = MatchState.POSITION))) =
      fun a : Letter => (fun l : Letter => decide (l.letter = c ∧ l.state = MatchState.MATCH)) a
        || (fun l : Letter => decide (l.letter = c ∧ l.state = MatchState.POSITION)) a := by
    funext a
    simp only [Bool.decide_and, Bool.and_or_distrib_left]
  rw [hfun, countP_or_split _ _ (by
    intro a ha
    simp only [decide_eq_true_eq] at ha
    rw [ha.2]
    simp)]
  have hA : (secondPass (firstPass L T).1 (firstPass L T).2).1.countP
      (fun l => decide (l.letter = c ∧ l.state = MatchState.MATCH)) =
      (firstPass L T).1.countP (fun l => decide (l.letter = c ∧ l.state = MatchState.MATCH)) := by
    have h := secondPass_match_count (fun ch => decide (ch = c)) (firstPass L T).1 (firstPass L T).2
    simp only [Bool.decide_and]
    exact h
  have hB := secondPass_position_credit c hc (firstPass L T).1 (firstPass L T).2
  have hC := firstPass_credit c hc L T hlen hst
  omega

/-- Helper: getLast? of a list with an appended element. -/
theorem getLast_app {α : Type} (l : List α) (a : α) : (l ++ [a]).getLast? = some a := by
  simp

/-- Helper: dropLast of a list with an appended element. -/
theorem dropLast_app {α : Type} (l : List α) (a : α) : (l ++ [a]).dropLast = l := by
  simp

/-- Normal form of enter on a board whose open row is full: the row is
evaluated and the branch is decided by the all-MATCH check and the row
count. -/
theorem enter_committed (s : WordleState) (rs : List WordleRow) (wr : Nat) (L : List Letter)
    (width height : Nat) (hrows : s.rows = rs ++ [⟨wr, some L⟩]) (hfull : L.length = wr) :
    enter s width height =
      if (evalRow L s.target).all (fun l => l.state = MatchState.MATCH) then
        some { s with
                rows := rs ++ [⟨wr, some (evalRow L s.target)⟩]
                complete := Completion.success }
      else if rs.length + 1 ≥ height then
        some { s with
                rows := rs ++ [⟨wr, some (evalRow L s.target)⟩]
                complete := Completion.fail }
      else
        some { s with rows := rs ++ [⟨wr, some (evalRow L s.target)⟩, ⟨width, some []⟩] } := by
  have h1 : (rs ++ [(⟨wr, some L⟩ : WordleRow)]).getLast? = some ⟨wr, some L⟩ := getLast_app rs _
  have h2 : (rs ++ [(⟨wr, some L⟩ : WordleRow)]).dropLast = rs := dropLast_app rs _
  rw [enter, hrows, h1]
  simp only [Option.getD_some, h2, hfull, ne_eq, not_true_eq_false, if_false,
    List.length_append, List.length_singleton]
  split
  · rfl
  · split <;> simp [List.append_assoc]

/-- Helper: indexing just past a prefix. -/
theorem getElem_app_len {α : Type} (l t : List α) (a : α) : (l ++ a :: t)[l.length]? = some a := by
  rw [List.getElem?_append_right (Nat.le_refl _)]
  simp

/-- C1: for every target word and committed guess of the same length (the
open row holds exactly width freshly typed letters), after enter evaluates
the row the number of MATCH cells equals the number of agreeing positions,
and for every letter c (c is never the sentinel underscore) the cells
holding c marked MATCH or POSITION never exceed the occurrences of c in
the target. -/
theorem C1_match_count_and_credit (s : WordleState) (rs : List WordleRow) (wr : Nat)
    (L : List Letter) (width height : Nat)
    (hrows : s.rows = rs ++ [⟨wr, some L⟩]) (hfull : L.length = wr)
    (hlen : L.length = s.target.length)
    (hst : ∀ l ∈ L, l.state = MatchState.INVALID)
    (c : Char) (hc : c ≠ '_') :
    ∃ s' E, enter s width height = some s' ∧
      s'.rows[rs.length]? = some ⟨wr, some E⟩ ∧
      E.countP (fun l => decide (l.state = MatchState.MATCH)) =
        ((L.map Letter.letter).zip s.target).countP (fun p => decide (p.1 = p.2)) ∧
      E.countP (fun l => decide (l.letter = c) &&
          (decide (l.state = MatchState.MATCH) || decide (l.state = MatchState.POSITION)))
        ≤ s.target.count c := by
  have hst' : ∀ l ∈ L, l.state ≠ MatchState.MATCH := by
    intro l hl
    rw [hst l hl]
    simp
  have hm := evalRow_match_count L s.target hlen hst'
  have hcr := evalRow_credit L s.target hlen hst' c hc
  have hcom := enter_committed s rs wr L width height hrows hfull
  by_cases hall : (evalRow L s.target).all (fun l => l.state = MatchState.MATCH)
  · rw [if_pos hall] at hcom
    refine ⟨_, evalRow L s.target, hcom, ?_, hm, hcr⟩
    exact getElem_app_len rs [] _
  · rw [if_neg hall] at hcom
    by_cases hh : rs.length + 1 ≥ height
    · rw [if_pos hh] at hcom
      refine ⟨_, evalRow L s.target, hcom, ?_, hm, hcr⟩
      exact getElem_app_len rs [] _
    · rw [if_neg hh] at hcom
      refine ⟨_, evalRow L s.target, hcom, ?_, hm, hcr⟩
      exact getElem_app_len rs [⟨width, some []⟩] _

/-- C1 witness: the CRANE board with guess TRACE and letter E. -/
theorem C1_witness :
    ∃ s' E, enter craneBoard 5 6 = some s' ∧
      s'.rows[0]? = some ⟨5, some E⟩ ∧
      E.countP (fun l => decide (l.state = MatchState.MATCH)) =
        (((['T', 'R', 'A', 'C', 'E'].map typed).map Letter.letter).zip
            craneBoard.target).countP (fun p => decide (p.1 = p.2)) ∧
      E.countP (fun l => decide (l.letter = 'E') &&
          (decide (l.state = MatchState.MATCH) || decide (l.state = MatchState.POSITION)))
        ≤ craneBoard.target.count 'E' :=
  C1_match_count_and_credit craneBoard [] 5 (['T', 'R', 'A', 'C', 'E'].map typed) 5 6
    rfl rfl rfl (by decide) 'E' (by decide)

/-- C2 counterexample: on target CRANE with guess TRACE the code does not
produce the spec's states Invalid, Match, Position, Position, Match. -/
theorem C2_counterexample :
    ¬((enter craneBoard 5 6).bind
        (fun s' => s'.rows[0]?.map (fun r => (r.letter.getD []).map Letter.state)) =
      some [MatchState.INVALID, MatchState.MATCH, MatchState.POSITION,
        MatchState.POSITION, MatchState.MATCH]) := by
  decide

/-- C2 amended: on target CRANE with guess TRACE enter marks the five
positions, in order, Invalid, Match, Match, Position, Match (the A in
third position is an exact match). -/
theorem C2_crane_trace :
    (enter craneBoard 5 6).bind
        (fun s' => s'.rows[0]?.map (fun r => (r.letter.getD []).map Letter.state)) =
      some [MatchState.INVALID, MatchState.MATCH, MatchState.MATCH,
        MatchState.POSITION, MatchState.MATCH] := by
  decide

/-- C3 counterexample: enter has no completed-board guard, so on a FAIL
board whose full row count is below the height argument it appends a row
and returns a structurally different state. -/
theorem C3_counterexample : enter failedBoard 1 2 ≠ some failedBoard := by
  decide

/-- C3 amended: add and remove are no-ops on every terminal board for all
argument choices; the enter operation is excluded because it carries no
completed-board guard. -/
theorem C3_terminal_noop (s : WordleState) (h : s.complete ≠ Completion.incomplete)
    (width height : Nat) (c : Char) : add s width height c = s ∧ remove s = s := by
  constructor
  · rw [add, if_pos h]
  · rw [remove, if_pos h]

/-- C3 witness: the FAIL board is untouched by add and remove. -/
theorem C3_witness : add failedBoard 1 2 'Z' = failedBoard ∧ remove failedBoard = failedBoard :=
  C3_terminal_noop failedBoard (by decide) 1 2 'Z'

/-- C4: committing a full row of an incomplete board yields SUCCESS when
every cell evaluates to MATCH regardless of guesses remaining; otherwise
FAIL exactly when the row count has reached the height; otherwise the
board stays incomplete and a fresh empty open row is appended. -/
theorem C4_completion (s : WordleState) (rs : List WordleRow) (wr : Nat) (L : List Letter)
    (width height : Nat) (hc : s.complete = Completion.incomplete)
    (hrows : s.rows = rs ++ [⟨wr, some L⟩]) (hfull : L.length = wr) :
    ∃ s', enter s width height = some s' ∧
      ((evalRow L s.target).all (fun l => l.state = MatchState.MATCH) = true →
        s'.complete = Completion.success) ∧
      ((evalRow L s.target).all (fun l => l.state = MatchState.MATCH) = false →
        rs.length + 1 ≥ height → s'.complete = Completion.fail) ∧
      ((evalRow L s.target).all (fun l => l.state = MatchState.MATCH) = false →
        rs.length + 1 < height →
        s'.complete = Completion.incomplete ∧
        s'.rows = rs ++ [⟨wr, some (evalRow L s.target)⟩, ⟨width, some []⟩]) := by
  have hcom := enter_committed s rs wr L width height hrows hfull
  by_cases hall : (evalRow L s.target).all (fun l => l.state = MatchState.MATCH)
  · rw [if_pos hall] at hcom
    refine ⟨_, hcom, fun _ => rfl, fun hf _ => ?_, fun hf _ => ?_⟩ <;>
      rw [hall] at hf <;> cases hf
  · rw [if_neg hall] at hcom
    by_cases hh : rs.length + 1 ≥ height
    · rw [if_pos hh] at hcom
      refine ⟨_, hcom, fun ht => ?_, fun _ _ => rfl, fun _ hlt => ?_⟩
      · rw [ht] at hall
        cases hall rfl
      · omega
    · rw [if_neg hh] at hcom
      refine ⟨_, hcom, fun ht => ?_, fun _ hge => ?_, fun _ _ => ⟨hc, rfl⟩⟩
      · rw [ht] at hall
        cases hall rfl
      · omega

/-- C4 witness: the HI board wins on the committed correct guess. -/
theorem C4_witness :
    ∃ s', enter winBoard 2 6 = some s' ∧
      ((evalRow [typed 'H', typed 'I'] winBoard.target).all
          (fun l => l.state = MatchState.MATCH) = true →
        s'.complete = Completion.success) ∧
      ((evalRow [typed 'H', typed 'I'] winBoard.target).all
          (fun l => l.state = MatchState.MATCH) = false →
        0 + 1 ≥ 6 → s'.complete = Completion.fail) ∧
      ((evalRow [typed 'H', typed 'I'] winBoard.target).all
          (fun l => l.state = MatchState.MATCH) = false →
        0 + 1 < 6 →
        s'.complete = Completion.incomplete ∧
        s'.rows = [] ++ [⟨2, some (evalRow [typed 'H', typed 'I'] winBoard.target)⟩,
          ⟨2, some []⟩]) :=
  C4_completion winBoard [] 2 [typed 'H', typed 'I'] 2 6 rfl rfl rfl

/-- C5 counterexample: on an incomplete board with an empty rows sequence
enter does not return normally (the source throws reading the open row). -/
theorem C5_counterexample : enter rowlessBoard 3 6 = none := by
  decide

/-- C5 amended: on an incomplete board having at least one row whose open
row's letter list is present and holds fewer than width letters, enter
returns normally and the state is structurally identical to the input. -/
theorem C5_short_row_noop (s : WordleState) (rs : List WordleRow) (wr : Nat) (L : List Letter)
    (width height : Nat) (hc : s.complete = Completion.incomplete)
    (hrows : s.rows = rs ++ [⟨wr, some L⟩]) (hlt : L.length < wr) :
    enter s width height = some s := by
  have hne : L.length ≠ wr := Nat.ne_of_lt hlt
  rw [enter, hrows, getLast_app]
  simp only [Option.getD_some, dropLast_app, hne, ne_eq, not_false_eq_true, if_true]
  rw [← hrows]

/-- C5 witness: a board one letter into a three-letter guess is untouched
by enter. -/
theorem C5_witness : enter shortRowBoard 3 6 = some shortRowBoard :=
  C5_short_row_noop shortRowBoard [] 3 [typed 'A'] 3 6 rfl rfl (by decide)

/-- C6 counterexample: on an incomplete board whose open row is already
full, add is a no-op but remove still deletes a letter, so the round trip
does not restore the rows. -/
theorem C6_counterexample : (remove (add fullRowBoard 1 6 'C')).rows ≠ fullRowBoard.rows := by
  decide

/-- C6 amended: on an incomplete board with an open row that is present
and not yet full, add then remove restores the rows sequence exactly. -/
theorem C6_round_trip (s : WordleState) (rs : List WordleRow) (wr : Nat) (L : List Letter)
    (width height : Nat) (c : Char) (hc : s.complete = Completion.incomplete)
    (hrows : s.rows = rs ++ [⟨wr, some L⟩]) (hlt : L.length < wr) :
    (remove (add s width height c)).rows = s.rows := by
  have hnc : ¬(s.complete ≠ Completion.incomplete) := by
    rw [hc]
    simp
  have hlen : ¬(s.rows.length = 0) := by
    rw [hrows]
    simp
  have ha : add s width height c =
      { s with rows := rs ++ [⟨wr, some (L ++ [⟨c, MatchState.INVALID⟩])⟩] } := by
    rw [add, if_neg hnc]
    have h0 : (if s.rows.length = 0 then s.rows ++ [(⟨width, some []⟩ : WordleRow)] else s.rows) =
        rs ++ [⟨wr, some L⟩] := by
      rw [if_neg hlen, hrows]
    rw [h0]
    simp only [getLast_app, Option.getD_some, dropLast_app]
    rw [if_neg (Nat.not_le.mpr hlt)]
  rw [ha, remove]
  have hc2 : ({ s with rows := rs ++ [⟨wr, some (L ++ [⟨c, MatchState.INVALID⟩])⟩] }
      : WordleState).complete = Completion.incomplete := hc
  rw [if_neg (by rw [hc2]; simp)]
  rw [if_neg (show ¬(({ s with rows := rs ++ [⟨wr, some (L ++ [⟨c, MatchState.INVALID⟩])⟩] }
      : WordleState).rows.length = 0) from by simp)]
  simp only [getLast_app, Option.getD_some, dropLast_app]
  rw [if_neg (by simp)]
  simp [hrows]

/-- C6 witness: the HI board one letter in, after add X then remove. -/
theorem C6_witness : (remove (add roundTripBoard 2 6 'X')).rows = roundTripBoard.rows :=
  C6_round_trip roundTripBoard [] 2 [typed 'H'] 2 6 'X' rfl rfl (by decide)

/-! ### Controller invariant machinery -/

/-- openCount through an explicit last row. -/
theorem openCount_eq (b : WordleState) (rs : List WordleRow) (w : Nat)
    (ol : Option (List Letter)) (h : b.rows = rs ++ [⟨w, ol⟩]) :
    openCount b = (ol.getD []).length := by
  unfold openCount
  simp only [h, getLast_app]

/-- openCount of a rowless board. -/
theorem openCount_nil (b : WordleState) (h : b.rows = []) : openCount b = 0 := by
  unfold openCount
  simp only [h, List.getLast?_nil]

/-- Effect of add on a board whose open row is not yet full: completion is
preserved, widths and letter lists stay well-formed, and the open row
grows by one letter. -/
theorem add_open_row (b : WordleState) (lc ga : Nat) (c : Char)
    (hc : b.complete = Completion.incomplete)
    (hw : ∀ r ∈ b.rows, r.width = lc ∧ r.letter ≠ none)
    (hn : openCount b < lc) :
    (add b lc ga c).complete = Completion.incomplete ∧
    (∀ r ∈ (add b lc ga c).rows, r.width = lc ∧ r.letter ≠ none) ∧
    openCount (add b lc ga c) = openCount b + 1 := by
  have hnc : ¬(b.complete ≠ Completion.incomplete) := by
    rw [hc]
    simp
  rcases b.rows.eq_nil_or_concat with hr | ⟨rs, r, hr⟩
  · have hoc : openCount b = 0 := openCount_nil b hr
    have ha : add b lc ga c = { b with rows := [⟨lc, some [⟨c, MatchState.INVALID⟩]⟩] } := by
      rw [add, if_neg hnc]
      have h0 : (if b.rows.length = 0 then b.rows ++ [(⟨lc, some []⟩ : WordleRow)] else b.rows) =
          [] ++ [⟨lc, some []⟩] := by
        rw [hr]
        simp
      rw [h0]
      simp only [getLast_app, Option.getD_some, dropLast_app]
      rw [if_neg (by simp only [List.length_nil]; omega)]
      simp
    rw [ha, hoc]
    refine ⟨hc, ?_, ?_⟩
    · intro r' hr'
      rw [List.mem_singleton] at hr'
      subst hr'
      exact ⟨rfl, by simp⟩
    · exact openCount_eq _ [] lc (some [⟨c, MatchState.INVALID⟩]) rfl
  · rw [List.concat_eq_append] at hr
    obtain ⟨wr, rl⟩ := r
    have hrmem : (⟨wr, rl⟩ : WordleRow) ∈ b.rows := by
      rw [hr]
      simp
    obtain ⟨hwid, hlet⟩ := hw _ hrmem
    simp only at hwid
    obtain ⟨Lb, hLb⟩ := Option.ne_none_iff_exists'.mp hlet
    simp only at hLb
    subst hLb
    have hoc : openCount b = Lb.length := by
      rw [openCount_eq b rs wr (some Lb) hr]
      rfl
    have ha : add b lc ga c =
        { b with rows := rs ++ [⟨wr, some (Lb ++ [⟨c, MatchState.INVALID⟩])⟩] } := by
      rw [add, if_neg hnc]
      have h0 : (if b.rows.length = 0 then b.rows ++ [(⟨lc, some []⟩ : WordleRow)] else b.rows) =
          rs ++ [⟨wr, some Lb⟩] := by
        rw [if_neg (by rw [hr]; simp), hr]
      rw [h0]
      simp only [getLast_app, Option.getD_some, dropLast_app]
      rw [if_neg (by omega)]
    rw [ha, hoc]
    refine ⟨hc, ?_, ?_⟩
    · intro r' hr'
      rcases List.mem_append.mp hr' with h | h
      · exact hw r' (by rw [hr]; exact List.mem_append.mpr (Or.inl h))
      · rw [List.mem_singleton] at h
        subst h
        exact ⟨hwid, by simp⟩
    · rw [openCount_eq _ rs wr (some (Lb ++ [⟨c, MatchState.INVALID⟩])) rfl]
      simp

/-- Effect of remove on a board whose open row is nonempty: completion is
preserved, widths and letter lists stay well-formed, and the open row
shrinks by one letter. -/
theorem remove_open_row (b : WordleState) (lc : Nat)
    (hc : b.complete = Completion.incomplete)
    (hw : ∀ r ∈ b.rows, r.width = lc ∧ r.letter ≠ none)
    (hn : 0 < openCount b) :
    (remove b).complete = Completion.incomplete ∧
    (∀ r ∈ (remove b).rows, r.width = lc ∧ r.letter ≠ none) ∧
    openCount (remove b) = openCount b - 1 := by
  have hnc : ¬(b.complete ≠ Completion.incomplete) := by
    rw [hc]
    simp
  rcases b.rows.eq_nil_or_concat with hr | ⟨rs, r, hr⟩
  · rw [openCount_nil b hr] at hn
    cases hn
  · rw [List.concat_eq_append] at hr
    obtain ⟨wr, rl⟩ := r
    have hrmem : (⟨wr, rl⟩ : WordleRow) ∈ b.rows := by
      rw [hr]
      simp
    obtain ⟨hwid, hlet⟩ := hw _ hrmem
    simp only at hwid
    obtain ⟨Lb, hLb⟩ := Option.ne_none_iff_exists'.mp hlet
    simp only at hLb
    subst hLb
    have hoc : openCount b = Lb.length := by
      rw [openCount_eq b rs wr (some Lb) hr]
      rfl
    have ha : remove b = { b with rows := rs ++ [⟨wr, some Lb.dropLast⟩] } := by
      rw [remove, if_neg hnc, if_neg (by rw [hr]; simp)]
      simp only [hr, getLast_app, Option.getD_some, dropLast_app]
      rw [if_neg (by omega)]
    rw [ha, hoc]
    refine ⟨hc, ?_, ?_⟩
    · intro r' hr'
      rcases List.mem_append.mp hr' with h | h
      · exact hw r' (by rw [hr]; exact List.mem_append.mpr (Or.inl h))
      · rw [List.mem_singleton] at h
        subst h
        exact ⟨hwid, by simp⟩
    · rw [openCount_eq _ rs wr (some Lb.dropLast) rfl]
      simp

/-- Effect of a successful enter on a board under the controller
invariant: the rows stay well-formed and, when the board is still
incomplete afterwards, the fresh open row is empty. -/
theorem enter_open_row (b : WordleState) (lc ga : Nat) (b' : WordleState)
    (hw : ∀ r ∈ b.rows, r.width = lc ∧ r.letter ≠ none)
    (hn : openCount b = lc)
    (he : enter b lc ga = some b') :
    (∀ r ∈ b'.rows, r.width = lc ∧ r.letter ≠ none) ∧
    (b'.complete = Completion.incomplete → b.complete = Completion.incomplete ∧ openCount b' = 0) := by
  rcases b.rows.eq_nil_or_concat with hr | ⟨rs, r, hr⟩
  · rw [enter] at he
    simp only [hr, List.getLast?_nil] at he
    cases he
  · rw [List.concat_eq_append] at hr
    obtain ⟨wr, rl⟩ := r
    have hrmem : (⟨wr, rl⟩ : WordleRow) ∈ b.rows := by
      rw [hr]
      simp
    obtain ⟨hwid, hlet⟩ := hw _ hrmem
    simp only at hwid
    obtain ⟨Lb, hLb⟩ := Option.ne_none_iff_exists'.mp hlet
    simp only at hLb
    subst hLb
    have hoc : openCount b = Lb.length := by
      rw [openCount_eq b rs wr (some Lb) hr]
      rfl
    have hfull : Lb.length = wr := by omega
    have hcom := enter_committed b rs wr Lb lc ga hr hfull
    have hwidE : ∀ r' ∈ rs ++ [(⟨wr, some (evalRow Lb b.target)⟩ : WordleRow)],
        r'.width = lc ∧ r'.letter ≠ none := by
      intro r' hr'
      rcases List.mem_append.mp hr' with h | h
      · exact hw r' (by rw [hr]; exact List.mem_append.mpr (Or.inl h))
      · rw [List.mem_singleton] at h
        subst h
        exact ⟨hwid, by simp⟩
    by_cases hall : (evalRow Lb b.target).all (fun l => l.state = MatchState.MATCH)
    · rw [if_pos hall] at hcom
      rw [hcom] at he
      injection he with he'
      subst he'
      exact ⟨hwidE, fun h => by cases h⟩
    · rw [if_neg hall] at hcom
      by_cases hh : rs.length + 1 ≥ ga
      · rw [if_pos hh] at hcom
        rw [hcom] at he
        injection he with he'
        subst he'
        exact ⟨hwidE, fun h => by cases h⟩
      · rw [if_neg hh] at hcom
        rw [hcom] at he
        injection he with he'
        subst he'
        refine ⟨?_, fun h => ⟨h, ?_⟩⟩
        · intro r' hr'
          have hsplit : rs ++ [(⟨wr, some (evalRow Lb b.target)⟩ : WordleRow),
              (⟨lc, some []⟩ : WordleRow)] =
              (rs ++ [⟨wr, some (evalRow Lb b.target)⟩]) ++ [⟨lc, some []⟩] := by
            simp
          rw [hsplit] at hr'
          rcases List.mem_append.mp hr' with h | h
          · exact hwidE r' h
          · rw [List.mem_singleton] at h
            subst h
            exact ⟨rfl, by simp⟩
        · have hsplit : rs ++ [(⟨wr, some (evalRow Lb b.target)⟩ : WordleRow),
              (⟨lc, some []⟩ : WordleRow)] =
              (rs ++ [⟨wr, some (evalRow Lb b.target)⟩]) ++ [⟨lc, some []⟩] := by
            simp
          exact openCount_eq _ _ lc (some []) hsplit

/-- Every board in the output of enterAll comes from the matching input
board: kept as-is when complete, passed through enter otherwise. -/
theorem enterAll_mem (ws : List WordleState) (lc ga : Nat) (ws' : List WordleState)
    (h : enterAll ws lc ga = some ws') :
    ∀ b' ∈ ws', ∃ b ∈ ws,
      (b.complete ≠ Completion.incomplete ∧ b' = b) ∨
      (b.complete = Completion.incomplete ∧ enter b lc ga = some b') := by
  induction ws generalizing ws' with
  | nil =>
    rw [enterAll] at h
    injection h with h'
    subst h'
    intro b' hb'
    cases hb'
  | cons e rest ih =>
    rw [enterAll] at h
    rcases he' : (if e.complete ≠ Completion.incomplete then some e else enter e lc ga) with _ | a
    · rw [he'] at h
      cases h
    · rw [he'] at h
      rcases hrest : enterAll rest lc ga with _ | bs
      · rw [hrest] at h
        cases h
      · rw [hrest] at h
        injection h with h'
        subst h'
        intro b' hb'
        cases hb' with
        | head =>
          refine ⟨e, List.mem_cons_self e rest, ?_⟩
          by_cases hce : e.complete ≠ Completion.incomplete
          · rw [if_pos hce] at he'
            injection he' with he''
            exact Or.inl ⟨hce, he''.symm⟩
          · rw [if_neg hce] at he'
            simp only [ne_eq, not_not] at hce
            exact Or.inr ⟨hce, he'⟩
        | tail _ hb' =>
          obtain ⟨b, hb, hrel⟩ := ih bs hrest b' hb'
          exact ⟨b, List.mem_cons_of_mem e hb, hrel⟩

/-- The controller invariant holds for the initial state. -/
theorem ctrlInv_initial (lc ga cols : Nat) (words : List (List Char)) :
    CtrlInv (initialState lc ga cols words) := by
  refine ⟨by simp [initialState], ?_⟩
  intro b hb
  simp only [initialState, List.mem_map] at hb
  obtain ⟨t, _, hbt⟩ := hb
  subst hbt
  constructor
  · intro r hr
    cases hr
  · intro _
    rw [openCount_nil _ rfl]
    simp [initialState]

/-- addLetter preserves the controller invariant. -/
theorem ctrlInv_addLetter (g : GameState) (c : Char) (h : CtrlInv g) :
    CtrlInv (addLetter g c) := by
  obtain ⟨hlen, hboards⟩ := h
  rw [addLetter]
  by_cases hfull : g.activeGuess.length ≥ g.letterCount
  · rw [if_pos hfull]
    exact ⟨hlen, hboards⟩
  · rw [if_neg hfull]
    have hlt : g.activeGuess.length < g.letterCount := Nat.lt_of_not_le hfull
    constructor
    · simp only [List.length_append, List.length_singleton]
      omega
    · intro b' hb'
      simp only [List.mem_map] at hb'
      obtain ⟨b, hb, hbe⟩ := hb'
      obtain ⟨hw, hopen⟩ := hboards b hb
      by_cases hbc : b.complete ≠ Completion.incomplete
      · rw [if_pos hbc] at hbe
        subst hbe
        exact ⟨hw, fun hh => absurd hh hbc⟩
      · rw [if_neg hbc] at hbe
        simp only [ne_eq, not_not] at hbc
        have hcount : openCount b < g.letterCount := by
          rw [hopen hbc]
          exact hlt
        obtain ⟨h1, h2, h3⟩ := add_open_row b g.letterCount g.guessesAllowed c hbc hw hcount
        subst hbe
        refine ⟨h2, fun _ => ?_⟩
        rw [h3, hopen hbc]
        simp

/-- removeLetter preserves the controller invariant. -/
theorem ctrlInv_removeLetter (g : GameState) (h : CtrlInv g) :
    CtrlInv (removeLetter g) := by
  obtain ⟨hlen, hboards⟩ := h
  rw [removeLetter]
  by_cases hempty : g.activeGuess.length ≤ 0
  · rw [if_pos hempty]
    exact ⟨hlen, hboards⟩
  · rw [if_neg hempty]
    have hpos : 0 < g.activeGuess.length := Nat.lt_of_not_le hempty
    constructor
    · simp only [List.length_dropLast]
      omega
    · intro b' hb'
      simp only [List.mem_map] at hb'
      obtain ⟨b, hb, hbe⟩ := hb'
      obtain ⟨hw, hopen⟩ := hboards b hb
      by_cases hbc : b.complete ≠ Completion.incomplete
      · rw [if_pos hbc] at hbe
        subst hbe
        exact ⟨hw, fun hh => absurd hh hbc⟩
      · rw [if_neg hbc] at hbe
        simp only [ne_eq, not_not] at hbc
        have hcount : 0 < openCount b := by
          rw [hopen hbc]
          exact hpos
        obtain ⟨h1, h2, h3⟩ := remove_open_row b g.letterCount hbc hw hcount
        subst hbe
        refine ⟨h2, fun _ => ?_⟩
        rw [h3, hopen hbc]
        simp only [List.length_dropLast]

/-- onEnter preserves the controller invariant whenever it returns a
GameState. -/
theorem ctrlInv_onEnter (g g' : GameState) (vw : List (List Char)) (h : CtrlInv g)
    (he : onEnter g vw = some (StateOrWin.game g')) : CtrlInv g' := by
  obtain ⟨hlen, hboards⟩ := h
  rw [onEnter] at he
  by_cases hg : g.activeGuess.length ≠ g.letterCount
  · rw [if_pos hg] at he
    injection he with he'
    injection he' with he''
    subst he''
    exact ⟨hlen, hboards⟩
  · rw [if_neg hg] at he
    simp only [ne_eq, not_not] at hg
    by_cases hv : g.activeGuess ∉ vw
    · rw [if_pos hv] at he
      injection he with he'
      injection he' with he''
      subst he''
      exact ⟨hlen, hboards⟩
    · rw [if_neg hv] at he
      rcases hall : enterAll g.states g.letterCount g.guessesAllowed with _ | states
      · rw [hall] at he
        cases he
      · rw [hall] at he
        split at he
        · cases he
        · rename_i x2 states2 heq
          injection heq with heq'
          subst heq'
          split at he
          · cases he
          · injection he with he'
            injection he' with he''
            subst he''
            constructor
            · simp
            · intro b' hb'
              obtain ⟨b, hb, hrel⟩ := enterAll_mem g.states g.letterCount g.guessesAllowed
                states hall b' hb'
              obtain ⟨hw, hopen⟩ := hboards b hb
              rcases hrel with ⟨hbc, hbe⟩ | ⟨hbc, hbe⟩
              · subst hbe
                exact ⟨hw, fun hh => absurd hh hbc⟩
              · have hcount : openCount b = g.letterCount := by
                  rw [hopen hbc]
                  exact hg
                obtain ⟨h1, h2⟩ := enter_open_row b g.letterCount g.guessesAllowed b'
                  hw hcount hbe
                refine ⟨h1, fun hh => ?_⟩
                rw [(h2 hh).2]
                simp

/-- The controller invariant is preserved along every reachable state. -/
theorem ctrlInv_reachable (init g : GameState) (hr : Reachable init g)
    (h : CtrlInv init) : CtrlInv g := by
  induction hr with
  | refl => exact h
  | step g1 g2 op _ hop ih =>
    cases op with
    | addL c =>
      rw [applyOp] at hop
      injection hop with hop'
      injection hop' with hop''
      rw [← hop'']
      exact ctrlInv_addLetter g1 c ih
    | removeL =>
      rw [applyOp] at hop
      injection hop with hop'
      injection hop' with hop''
      rw [← hop'']
      exact ctrlInv_removeLetter g1 ih
    | enterOp vw =>
      rw [applyOp] at hop
      exact ctrlInv_onEnter g1 g2 vw ih hop

/-- C7: from the initial GameState, after any sequence of the controller
operations addLetter, removeLetter and onEnter, every board that is still
incomplete has an open row holding exactly activeGuess.length letters
(a rowless board counting as zero), and the active guess never exceeds
letterCount. -/
theorem C7_controller_invariant (lc ga cols : Nat) (words : List (List Char)) (g : GameState)
    (h : Reachable (initialState lc ga cols words) g) :
    g.activeGuess.length ≤ g.letterCount ∧
    ∀ b ∈ g.states, b.complete = Completion.incomplete →
      openCount b = g.activeGuess.length := by
  obtain ⟨h1, h2⟩ := ctrlInv_reachable _ g h (ctrlInv_initial lc ga cols words)
  exact ⟨h1, fun b hb hbc => (h2 b hb).2 hbc⟩

/-- C7 witness: the invariant at the freshly constructed CRANE game. -/
theorem C7_witness :
    (initialState 5 6 1 [['C', 'R', 'A', 'N', 'E']]).activeGuess.length ≤
      (initialState 5 6 1 [['C', 'R', 'A', 'N', 'E']]).letterCount ∧
    ∀ b ∈ (initialState 5 6 1 [['C', 'R', 'A', 'N', 'E']]).states,
      b.complete = Completion.incomplete →
      openCount b = (initialState 5 6 1 [['C', 'R', 'A', 'N', 'E']]).activeGuess.length :=
  C7_controller_invariant 5 6 1 [['C', 'R', 'A', 'N', 'E']] _ Reachable.refl

/-- C8: with the synthetic tag set onKey sends no replication message at
all; a non-synthetic letter, backspace or enter processed with a
communicator attached and a GameState sends exactly the one corresponding
message. -/
theorem C8_broadcast (hasComm synthetic : Bool) (vw : List (List Char))
    (e : Option KeyEvent) (ev : KeyEvent) (s : StateOrWin) (g : GameState) :
    (synthetic = true → (onKey hasComm vw synthetic e s).2 = []) ∧
    (synthetic = false → hasComm = true → s = StateOrWin.game g →
      ((65 ≤ ev.keyCode ∧ ev.keyCode ≤ 90) ∨ ev.keyCode = 8 ∨ ev.keyCode = 13) →
      (onKey hasComm vw synthetic (some ev) s).2 = [expectedRepMsg ev]) := by
  constructor
  · intro hs
    subst hs
    cases e with
    | none => rfl
    | some ev' =>
      rw [onKey.eq_def]
      simp only [eq_self_iff_true, not_true, and_false, if_false]
      repeat' split
      all_goals rfl
  · intro hs hcm hg hkc
    subst hs
    subst hcm
    subst hg
    rcases hkc with hl | h8 | h13
    · have h1 := hl.1
      have h2 := hl.2
      have h3 : ¬(ev.keyCode < 65) := by omega
      have h4 : ¬(90 < ev.keyCode) := by omega
      simp [onKey, expectedRepMsg, h1, h2, h3, h4]
    · norm_num [onKey, expectedRepMsg, h8]
    · norm_num [onKey, expectedRepMsg, h13]

/-- C8 witness: pressing A locally with a communicator attached sends
exactly one key-pressed message, and the same event replayed as synthetic
sends none. -/
theorem C8_witness :
    (false = true → (onKey true [] false (some ⟨65, 'A'⟩)
        (StateOrWin.game (initialState 5 6 1 []))).2 = []) ∧
    (false = false → true = true →
      StateOrWin.game (initialState 5 6 1 []) = StateOrWin.game (initialState 5 6 1 []) →
      ((65 ≤ (⟨65, 'A'⟩ : KeyEvent).keyCode ∧ (⟨65, 'A'⟩ : KeyEvent).keyCode ≤ 90) ∨
        (⟨65, 'A'⟩ : KeyEvent).keyCode = 8 ∨ (⟨65, 'A'⟩ : KeyEvent).keyCode = 13) →
      (onKey true [] false (some ⟨65, 'A'⟩)
        (StateOrWin.game (initialState 5 6 1 []))).2 = [expectedRepMsg ⟨65, 'A'⟩]) :=
  C8_broadcast true false [] (some ⟨65, 'A'⟩) ⟨65, 'A'⟩
    (StateOrWin.game (initialState 5 6 1 [])) (initialState 5 6 1 [])

/-- C9: send raises the not-open error exactly when the transport is not
yet connected (ready flag unset or no data channel), and on that error
nothing is transmitted and the state is unchanged. -/
theorem C9_send_not_open (c : WebRTCCommunicator.CommState) (v : String) :
    ((WebRTCCommunicator.send c v).2.2 = some "not open" ↔
      ¬(c.isReady = true ∧ c.dataChannel.isSome = true)) ∧
    ((WebRTCCommunicator.send c v).2.2.isSome = true →
      (WebRTCCommunicator.send c v).2.1 = [] ∧ (WebRTCCommunicator.send c v).1 = c) := by
  obtain ⟨r, d⟩ := c
  cases r <;> cases d <;> simp [WebRTCCommunicator.send]

/-- C9 witness: a transport with the ready flag unset raises and keeps its
state. -/
theorem C9_witness :
    ((WebRTCCommunicator.send ⟨false, none⟩ "x").2.2 = some "not open" ↔
      ¬((⟨false, none⟩ : WebRTCCommunicator.CommState).isReady = true ∧
        (⟨false, none⟩ : WebRTCCommunicator.CommState).dataChannel.isSome = true)) ∧
    ((WebRTCCommunicator.send ⟨false, none⟩ "x").2.2.isSome = true →
      (WebRTCCommunicator.send ⟨false, none⟩ "x").2.1 = [] ∧
      (WebRTCCommunicator.send ⟨false, none⟩ "x").1 = ⟨false, none⟩) :=
  C9_send_not_open ⟨false, none⟩ "x"

/-- C10: onEnter returns its input unchanged unless the active guess has
exactly letterCount letters and is a member of the valid-word list, so
every guess ever committed through this entry point is a valid word. -/
theorem C10_onEnter_guard (g : GameState) (vw : List (List Char)) :
    ((g.activeGuess.length ≠ g.letterCount ∨ g.activeGuess ∉ vw) →
      onEnter g vw = some (StateOrWin.game g)) ∧
    (onEnter g vw ≠ some (StateOrWin.game g) →
      g.activeGuess.length = g.letterCount ∧ g.activeGuess ∈ vw) := by
  have hbase : (g.activeGuess.length ≠ g.letterCount ∨ g.activeGuess ∉ vw) →
      onEnter g vw = some (StateOrWin.game g) := by
    intro h
    rcases h with h | h
    · rw [onEnter, if_pos h]
    · by_cases he : g.activeGuess.length ≠ g.letterCount
      · rw [onEnter, if_pos he]
      · rw [onEnter, if_neg he, if_pos h]
  refine ⟨hbase, ?_⟩
  intro h
  by_cases h1 : g.activeGuess.length = g.letterCount
  · by_cases h2 : g.activeGuess ∈ vw
    · exact ⟨h1, h2⟩
    · exact absurd (hbase (Or.inr h2)) h
  · exact absurd (hbase (Or.inl h1)) h

/-- C10 witness: with an empty guess on a five-letter game onEnter is the
identity. -/
theorem C10_witness :
    (((initialState 5 6 1 []).activeGuess.length ≠ (initialState 5 6 1 []).letterCount ∨
        (initialState 5 6 1 []).activeGuess ∉ [['H', 'E', 'L', 'L', 'O']]) →
      onEnter (initialState 5 6 1 []) [['H', 'E', 'L', 'L', 'O']] =
        some (StateOrWin.game (initialState 5 6 1 []))) ∧
    (onEnter (initialState 5 6 1 []) [['H', 'E', 'L', 'L', 'O']] ≠
        some (StateOrWin.game (initialState 5 6 1 [])) →
      (initialState 5 6 1 []).activeGuess.length = (initialState 5 6 1 []).letterCount ∧
      (initialState 5 6 1 []).activeGuess ∈ [['H', 'E', 'L', 'L', 'O']]) :=
  C10_onEnter_guard (initialState 5 6 1 []) [['H', 'E', 'L', 'L', 'O']]
